import Mathlib

/-!
Verification of the two ZMK keymap utilities of this repository:
`scripts/format_keymap.py` (the grid Formatter) and
`scripts/validate_keymap.py` (the syntax Validator).

Text is embedded as `List Char`.  The regular expressions of the source are
embedded as explicit scans with the same semantics:

* `&[a-zA-Z0-9_]+` (re.findall in `format_bindings`): `extractTokens` walks the
  characters; at an `&` it takes the maximal run of word characters and emits
  the token when the run is nonempty, exactly as the leftmost, non-overlapping,
  greedy `findall` does.
* `bindings = <([^>]+)>` (re.sub in `format_keymap_bindings`): `matchBlockAt`
  tries the pattern at one position (the literal, then a nonempty run of
  non-`>` characters, then `>`; `[^>]+` already crosses newlines, so the
  DOTALL flag changes nothing); `format_keymap_bindings` is the leftmost,
  non-overlapping substitution scan of `re.sub`.
* `\w+_layer\s*\{` (re.findall in `validate_keymap_syntax`): the script only
  compares `len(findall)` with 0, so `hasLayerDecl` embeds "at least one match
  exists", trying every start position with full backtracking over `\w+`.
  `\w` and `\s` are taken in their ASCII ranges, as keymap files are ASCII.

Functions whose recursion consumes a computed number of characters per step
are written with a fuel argument (fuel = length of the input, always enough,
as the fuel-irrelevance lemmas below prove) so that they stay structurally
recursive and reduce inside the kernel on concrete inputs.

File-system reads, the subprocess and printing are represented by explicit
data: `validate_keymap_syntax` takes the read's result as an
`Except String (List Char)` (the Python try/except around `open`/`read`),
`format_with_clang_and_grid` takes the clang-format interaction's outcome as a
`ClangOutcome` (binary absent / ran with an exit code and captured streams),
and printed lines are returned as lists of strings.
-/

namespace ZMKSpec

/-- The character class `[a-zA-Z0-9_]` of the binding-token regex (also
Python's ASCII `\w` of the layer regex). -/
def isWordChar (c : Char) : Bool :=
  ('a' ≤ c && c ≤ 'z') || ('A' ≤ c && c ≤ 'Z') || ('0' ≤ c && c ≤ '9') || c = '_'

/-- Python's `\s` on ASCII text: space, tab, newline, carriage return,
vertical tab, form feed. -/
def isSpaceChar (c : Char) : Bool :=
  c = ' ' || c = '\t' || c = '\n' || c = '\r' || c = '\x0b' || c = '\x0c'

/-- Fuel-driven scan of `re.findall(r'&[a-zA-Z0-9_]+', s)`: at `&` take the
maximal word-character run; emit `&run` when the run is nonempty and continue
after it, otherwise move one character on. -/
def extractTokensGo : Nat → List Char → List (List Char)
  | 0, _ => []
  | _, [] => []
  | fuel + 1, c :: rest =>
    if c = '&' then
      match rest.takeWhile isWordChar with
      | [] => extractTokensGo fuel rest
      | r0 :: rs => ('&' :: r0 :: rs) :: extractTokensGo fuel (rest.dropWhile isWordChar)
    else extractTokensGo fuel rest

/-- `re.findall(r'&[a-zA-Z0-9_]+', bindings)` — the `bindings_list` of
`format_bindings`. -/
def extractTokens (cs : List Char) : List (List Char) :=
  extractTokensGo cs.length cs

/-- Python `f'{binding:12}'`: left-justify, pad with spaces to a minimum
width of 12 (a longer token is unchanged; `12 - length` is Nat subtraction). -/
def pad12 (s : List Char) : List Char :=
  s ++ List.replicate (12 - s.length) ' '

/-- Fuel-driven `for i in range(0, len(l), 10): rows.append(l[i:i+10])` —
the chunking loop of `format_bindings` with `columns = 10`. -/
def chunksGo : Nat → List (List Char) → List (List (List Char))
  | 0, _ => []
  | _, [] => []
  | fuel + 1, x :: xs => ((x :: xs).take 10) :: chunksGo fuel ((x :: xs).drop 10)

/-- The token list split into rows of at most 10, in order. -/
def chunks (l : List (List Char)) : List (List (List Char)) :=
  chunksGo l.length l

/-- Python `sep.join(parts)` on character lists. -/
def joinSep (sep : List Char) : List (List Char) → List Char
  | [] => []
  | [x] => x
  | x :: y :: xs => x ++ sep ++ joinSep sep (y :: xs)

/-- `' '.join(f'{binding:12}' for binding in row)` — one formatted row. -/
def renderRow (row : List (List Char)) : List Char :=
  joinSep [' '] (row.map pad12)

/-- The literal `'bindings = <\\\n        '` of the source (backslash,
newline, eight spaces after the opening of the block). -/
def gridHeader : List Char := "bindings = <\\\n        ".data

/-- The row separator `'\\\n        '` of the source. -/
def rowSep : List Char := "\\\n        ".data

/-- The closing literal `'\\\n    >'` of the source. -/
def gridTail : List Char := "\\\n    >".data

/-- `format_bindings(match)` of format_keymap.py: extract the tokens of the
block body, chunk them into rows of 10, pad each token to width 12, join a
row with single spaces and the rows with the continuation sequence, and wrap
the result back into `bindings = < ... >` syntax. -/
def format_bindings (body : List Char) : List Char :=
  gridHeader ++ joinSep rowSep ((chunks (extractTokens body)).map renderRow) ++ gridTail

/-- The literal part `bindings = <` of the block pattern. -/
def bindLit : List Char := "bindings = <".data

/-- `bindLit` without its first character (used to analyse the scan one
character in). -/
def tailLit : List Char := "indings = <".data

/-- One attempt of the pattern `bindings = <([^>]+)>` at the start of `cs`:
`some (body, rest)` when the literal is a prefix and a nonempty run of
non-`>` characters followed by `>` comes next (greedy `[^>]+` cannot
backtrack past a `>`, so the run is exactly the maximal one); `rest` is the
text after the consumed match. -/
def matchBlockAt (cs : List Char) : Option (List Char × List Char) :=
  if bindLit.isPrefixOf cs then
    match (cs.drop 12).dropWhile (fun c => c != '>') with
    | [] => none
    | _ :: r =>
      match (cs.drop 12).takeWhile (fun c => c != '>') with
      | [] => none
      | b0 :: bs => some (b0 :: bs, r)
  else none

/-- Fuel-driven scan of `re.sub(pattern, format_bindings, content)`: at each
position try the block pattern; on a match emit the reformatted block and
continue after the match, otherwise keep the character. -/
def subScanGo : Nat → List Char → List Char
  | 0, cs => cs
  | _, [] => []
  | fuel + 1, c :: cs =>
    match matchBlockAt (c :: cs) with
    | some (body, rest) => format_bindings body ++ subScanGo fuel rest
    | none => c :: subScanGo fuel cs

/-- `format_keymap_bindings(content)` of format_keymap.py. -/
def format_keymap_bindings (content : List Char) : List Char :=
  subScanGo content.length content

/-- A segment of the input as the substitution scan sees it: a character the
scan passed over unchanged, or one matched `bindings = < ... >` block with
its captured body. Analysis view of the same scan, used to state the frame
property. -/
inductive Seg where
  | lit (c : Char)
  | block (body : List Char)
deriving DecidableEq, Repr

/-- Fuel-driven decomposition of the input into `Seg`s, following exactly the
positions `format_keymap_bindings` visits. -/
def segsGo : Nat → List Char → List Seg
  | 0, _ => []
  | _, [] => []
  | fuel + 1, c :: cs =>
    match matchBlockAt (c :: cs) with
    | some (body, rest) => Seg.block body :: segsGo fuel rest
    | none => Seg.lit c :: segsGo fuel cs

/-- The segments of `cs` under the substitution scan. -/
def segsOf (cs : List Char) : List Seg :=
  segsGo cs.length cs

/-- A segment's original text. -/
def renderOrigSeg : Seg → List Char
  | Seg.lit c => [c]
  | Seg.block body => bindLit ++ body ++ ['>']

/-- A segment's text after substitution: literal characters verbatim, blocks
replaced by their reformatted text. -/
def renderNewSeg : Seg → List Char
  | Seg.lit c => [c]
  | Seg.block body => format_bindings body

/-- The original text rebuilt from its segments. -/
def renderOrig (segs : List Seg) : List Char :=
  (segs.map renderOrigSeg).flatten

/-- The substituted text rebuilt from the segments. -/
def renderNew (segs : List Seg) : List Char :=
  (segs.map renderNewSeg).flatten

/-- Whether the block pattern matches anywhere in `cs` (zero `bindings =
< ... >` blocks means this is false). -/
def hasBlock : List Char → Bool
  | [] => false
  | c :: cs => (matchBlockAt (c :: cs)).isSome || hasBlock cs

/-- The tail `\\n        ` part of `gridHeader` after the literal
`bindings = <` (same text as `rowSep`). -/
def tail4 : List Char := "\\\n    ".data

/-- The body a reformatted block captures on a second pass: everything the
Formatter puts between `<` and the final `>`. -/
def gridBody (toks : List (List Char)) : List Char :=
  rowSep ++ joinSep rowSep ((chunks toks).map renderRow) ++ tail4

/-- A well-formed binding token: `&` followed by a nonempty run of word
characters — the shape of everything `extractTokens` returns. -/
def WFtok (w : List Char) : Prop :=
  ∃ r0 rs, w = '&' :: r0 :: rs ∧ ∀ c ∈ r0 :: rs, isWordChar c = true

/-! ## Validator (validate_keymap.py) -/

/-- Python's substring test `pat in content`: some position of `content`
starts with `pat`. -/
def containsSub (pat : List Char) : List Char → Bool
  | [] => pat.isPrefixOf []
  | c :: rest => pat.isPrefixOf (c :: rest) || containsSub pat rest

/-- `#include <behaviors.dtsi>` — required include 1. -/
def behaviorsInc : List Char := "#include <behaviors.dtsi>".data

/-- `#include <dt-bindings/zmk/keys.h>` — required include 2. -/
def keysInc : List Char := "#include <dt-bindings/zmk/keys.h>".data

/-- `compatible = "zmk,keymap"` — the keymap node marker. -/
def compatProp : List Char := "compatible = \"zmk,keymap\"".data

/-- Diagnostic for a missing behaviors include. -/
def errBehaviors : String := "Missing required include: #include <behaviors.dtsi>"

/-- Diagnostic for a missing keys include. -/
def errKeys : String := "Missing required include: #include <dt-bindings/zmk/keys.h>"

/-- Diagnostic for a missing keymap node. -/
def errCompat : String := "Missing keymap node with compatible property"

/-- Diagnostic for zero layer declarations. -/
def errLayers : String := "No layers found in keymap"

/-- `\s*\{` after the `_layer` literal: optional whitespace, then `{`. -/
def wsThenBrace : List Char → Bool
  | [] => false
  | c :: rest => if c = '\x7b' then true else if isSpaceChar c then wsThenBrace rest else false

/-- The literal `_layer` of the layer regex. -/
def layerLit : List Char := "_layer".data

/-- Whether `\w+_layer\s*\{` matches starting exactly here: one word
character, then either the literal part at once or (backtracking over `\w+`)
a match one position further in. -/
def layerMatchAt : List Char → Bool
  | [] => false
  | c :: rest =>
    isWordChar c && ((layerLit.isPrefixOf rest && wsThenBrace (rest.drop 6)) || layerMatchAt rest)

/-- Whether `re.findall(r'\w+_layer\s*\{', content)` finds at least one match
(the script only compares the count with zero). -/
def hasLayerDecl : List Char → Bool
  | [] => false
  | c :: rest => layerMatchAt (c :: rest) || hasLayerDecl rest

/-- The four presence checks of `validate_keymap_syntax`, run in order on
content that was read successfully, each failing one appending its fixed
diagnostic. -/
def keymapChecks (content : List Char) : List String :=
  let errors : List String := []
  let errors := if containsSub behaviorsInc content then errors else errors ++ [errBehaviors]
  let errors := if containsSub keysInc content then errors else errors ++ [errKeys]
  let errors := if containsSub compatProp content then errors else errors ++ [errCompat]
  let errors := if hasLayerDecl content then errors else errors ++ [errLayers]
  errors

/-- `validate_keymap_syntax(keymap_file)`: the whole body runs under
try/except, so a failed read skips every check and returns the single
read-failure diagnostic; a successful read runs the four checks. -/
def validate_keymap_syntax (readResult : Except String (List Char)) : List String :=
  match readResult with
  | Except.ok content => keymapChecks content
  | Except.error msg => ["Error reading file: " ++ msg]

/-- The `__main__` reporting of validate_keymap.py: the lines printed from an
error list — the `Errors found:` header then one `  - `-prefixed line per
diagnostic, or the single success line. -/
def validatorReport (errors : List String) : List String :=
  if errors.isEmpty then ["Keymap validation passed!"]
  else "Errors found:" :: errors.map (fun e => "  - " ++ e)

/-! ## External formatter step (format_with_clang_and_grid) -/

/-- The outcome of the clang-format interaction: the binary is absent (Popen
raises FileNotFoundError) or the subprocess ran and terminated with an exit
code and captured output streams. -/
inductive ClangOutcome where
  | notFound
  | ran (exitCode : Int) (stdout : List Char) (stderrText : List Char)
deriving DecidableEq

/-- The note printed when clang-format is missing. -/
def clangNote : String := "clang-format not found, using custom formatting only"

/-- The inner try/except of `format_with_clang_and_grid`: on
FileNotFoundError keep the text and print the note; on a run, replace the
text by the captured stdout only when the exit code is zero. Returns the
resulting text and the lines printed by this step. -/
def applyClangFilter (text : List Char) : ClangOutcome → List Char × List String
  | ClangOutcome.notFound => (text, [clangNote])
  | ClangOutcome.ran code out _ => (if code = 0 then out else text, [])

/-- `format_with_clang_and_grid(file_path)` with the file already read as
`content` and the subprocess interaction abstracted as `outcome`: the text
written back to the file, and the lines this step prints. -/
def format_with_clang_and_grid (content : List Char) (outcome : ClangOutcome) :
    List Char × List String :=
  applyClangFilter (format_keymap_bindings content) outcome

/-! ## Concrete inputs for witnesses and the counterexample -/

/-- A keymap containing the keys include, the keymap node and a layer, but
not the behaviors include (the Scenario 2 file of the spec). -/
def exC6 : List Char :=
  ("#include <dt-bindings/zmk/keys.h>\n" ++
   "compatible = \"zmk,keymap\"\n" ++
   "default_layer \x7b\n").data

/-- A bindings body with eleven tokens (two rows after chunking). -/
def exBody11 : List Char :=
  "&a &b &c &d &e &f &g &h &i &j &k".data

/-- A text with no bindings block. -/
def exPlain : List Char := "no block here".data

/-- A bindings body with no `&` token at all. -/
def exNoTok : List Char := "just words".data

/-- A grid-formatted sample input. -/
def exKeymap : List Char := "x bindings = <&kp A &mo 1> y".data

/-! ## Generic helper lemmas -/

theorem takeWhile_all_append (p : Char → Bool) (a t : List Char)
    (ha : ∀ x ∈ a, p x = true) (ht : ∀ c, t.head? = some c → p c = false) :
    (a ++ t).takeWhile p = a ∧ (a ++ t).dropWhile p = t := by
  induction a with
  | nil =>
    cases t with
    | nil => simp
    | cons c t2 =>
      have hc : p c = false := ht c rfl
      simp [List.takeWhile_cons, List.dropWhile_cons, hc]
  | cons x a2 ih =>
    have hx : p x = true := ha x (by simp)
    have ih2 := ih (fun y hy => ha y (by simp [hy]))
    simp [List.takeWhile_cons, List.dropWhile_cons, hx, ih2.1, ih2.2]

theorem dropWhile_head_false (p : Char → Bool) :
    ∀ (l : List Char) (c : Char) (r : List Char), l.dropWhile p = c :: r → p c = false := by
  intro l
  induction l with
  | nil => intro c r h; simp at h
  | cons x xs ih =>
    intro c r h
    rw [List.dropWhile_cons] at h
    split at h
    · exact ih _ _ h
    · next hx =>
      cases h
      simpa using hx

theorem isPrefixOf_append_self (a b : List Char) : a.isPrefixOf (a ++ b) = true := by
  rw [List.isPrefixOf_iff_prefix]
  exact ⟨b, rfl⟩

theorem eq_append_of_isPrefixOf {a b : List Char} (h : a.isPrefixOf b = true) :
    ∃ t, b = a ++ t := by
  rw [List.isPrefixOf_iff_prefix] at h
  obtain ⟨t, ht⟩ := h
  exact ⟨t, ht.symm⟩

theorem isPrefixOf_cons_iff (x y : Char) (a b : List Char) :
    (x :: a).isPrefixOf (y :: b) = (x == y && a.isPrefixOf b) := rfl

/-! ## extractTokens: fuel irrelevance and step equations -/

theorem extractTokensGo_fuel :
    ∀ (f1 f2 : Nat) (cs : List Char), cs.length ≤ f1 → cs.length ≤ f2 →
      extractTokensGo f1 cs = extractTokensGo f2 cs := by
  intro f1
  induction f1 with
  | zero =>
    intro f2 cs h1 _
    have hcs : cs = [] := List.length_eq_zero.mp (Nat.le_zero.mp h1)
    subst hcs
    cases f2 <;> rfl
  | succ a ih =>
    intro f2 cs h1 h2
    cases cs with
    | nil => cases f2 <;> rfl
    | cons c rest =>
      cases f2 with
      | zero => exact absurd h2 (by simp)
      | succ b =>
        have hra : rest.length ≤ a := by simpa using h1
        have hrb : rest.length ≤ b := by simpa using h2
        simp only [extractTokensGo]
        by_cases hc : c = '&'
        · simp only [if_pos hc]
          cases htw : rest.takeWhile isWordChar with
          | nil => exact ih b rest hra hrb
          | cons r0 rs =>
            have hd : (rest.dropWhile isWordChar).length ≤ rest.length :=
              (List.dropWhile_sublist isWordChar).length_le
            simp only []
            rw [ih b _ (le_trans hd hra) (le_trans hd hrb)]
        · simp only [if_neg hc]
          exact ih b rest hra hrb

theorem extractTokens_nil : extractTokens [] = [] := rfl

theorem extractTokens_cons_ne {c : Char} (rest : List Char) (h : ¬ c = '&') :
    extractTokens (c :: rest) = extractTokens rest := by
  show extractTokensGo (rest.length + 1) (c :: rest) = extractTokens rest
  simp only [extractTokensGo, if_neg h]
  rfl

theorem extractTokens_amp_nil (rest : List Char) (h : rest.takeWhile isWordChar = []) :
    extractTokens ('&' :: rest) = extractTokens rest := by
  show extractTokensGo (rest.length + 1) ('&' :: rest) = extractTokens rest
  simp only [extractTokensGo, h]
  simp [extractTokens]

theorem extractTokens_amp_cons (rest : List Char) (r0 : Char) (rs : List Char)
    (h : rest.takeWhile isWordChar = r0 :: rs) :
    extractTokens ('&' :: rest) =
      ('&' :: r0 :: rs) :: extractTokens (rest.dropWhile isWordChar) := by
  show extractTokensGo (rest.length + 1) ('&' :: rest) = _
  simp only [extractTokensGo, h, if_true]
  congr 1
  exact extractTokensGo_fuel rest.length (rest.dropWhile isWordChar).length _
    ((List.dropWhile_sublist isWordChar).length_le) (le_refl _)

theorem extractTokens_append_noamp (a t : List Char) (ha : '&' ∉ a) :
    extractTokens (a ++ t) = extractTokens t := by
  induction a with
  | nil => rfl
  | cons x a2 ih =>
    have hx : ¬ x = '&' := by
      intro h
      exact ha (by simp [h])
    rw [List.cons_append, extractTokens_cons_ne _ hx, ih (fun h => ha (List.mem_cons_of_mem _ h))]

theorem extractTokens_token (r0 : Char) (rs t : List Char)
    (hw : ∀ c ∈ r0 :: rs, isWordChar c = true)
    (ht : ∀ c, t.head? = some c → isWordChar c = false) :
    extractTokens ('&' :: ((r0 :: rs) ++ t)) = ('&' :: r0 :: rs) :: extractTokens t := by
  have h2 := takeWhile_all_append isWordChar (r0 :: rs) t hw ht
  rw [extractTokens_amp_cons ((r0 :: rs) ++ t) r0 rs (by rw [h2.1]), h2.2]

theorem extractTokens_wf : ∀ (cs : List Char), ∀ w ∈ extractTokens cs, WFtok w := by
  have main : ∀ (n : Nat) (cs : List Char), cs.length ≤ n → ∀ w ∈ extractTokens cs, WFtok w := by
    intro n
    induction n with
    | zero =>
      intro cs h w hw
      have hcs : cs = [] := List.length_eq_zero.mp (Nat.le_zero.mp h)
      subst hcs
      simp [extractTokens_nil] at hw
    | succ a ih =>
      intro cs h w hw
      cases cs with
      | nil => simp [extractTokens_nil] at hw
      | cons c rest =>
        have hra : rest.length ≤ a := by simpa using h
        by_cases hc : c = '&'
        · subst hc
          cases htw : rest.takeWhile isWordChar with
          | nil =>
            rw [extractTokens_amp_nil rest htw] at hw
            exact ih rest hra w hw
          | cons r0 rs =>
            rw [extractTokens_amp_cons rest r0 rs htw] at hw
            rcases List.mem_cons.mp hw with h1 | h1
            · subst h1
              refine ⟨r0, rs, rfl, ?_⟩
              intro x hx
              exact List.mem_takeWhile_imp (by rw [htw]; exact hx)
            · have hd : (rest.dropWhile isWordChar).length ≤ a :=
                le_trans ((List.dropWhile_sublist isWordChar).length_le) hra
              exact ih _ hd w h1
        · rw [extractTokens_cons_ne rest hc] at hw
          exact ih rest hra w hw
  intro cs
  exact main cs.length cs (le_refl _)

/-! ## matchBlockAt: inversion and construction -/

theorem mb_nil : matchBlockAt [] = none := rfl

theorem mb_eq_some {cs b r : List Char} (h : matchBlockAt cs = some (b, r)) :
    cs = bindLit ++ b ++ '>' :: r ∧ b ≠ [] ∧ ∀ x ∈ b, ¬ x = '>' := by
  unfold matchBlockAt at h
  by_cases hp : bindLit.isPrefixOf cs
  case neg => simp [hp] at h
  rw [if_pos hp] at h
  obtain ⟨u, hu⟩ := eq_append_of_isPrefixOf hp
  have hdrop : cs.drop 12 = u := by
    rw [hu, show (12 : Nat) = bindLit.length from rfl]
    exact List.drop_left bindLit u
  rw [hdrop] at h
  cases hd : u.dropWhile (fun c => c != '>') with
  | nil => rw [hd] at h; simp at h
  | cons d r2 =>
    rw [hd] at h
    cases ht : u.takeWhile (fun c => c != '>') with
    | nil => rw [ht] at h; simp at h
    | cons b0 bs =>
      rw [ht] at h
      simp only [Option.some.injEq, Prod.mk.injEq] at h
      obtain ⟨hb, hr⟩ := h
      have hdch : (d != '>') = false := dropWhile_head_false _ u d r2 hd
      have hdgt : d = '>' := by simpa using hdch
      have hu2 : (b0 :: bs) ++ d :: r2 = u := by
        rw [← ht, ← hd]
        exact List.takeWhile_append_dropWhile _ _
      refine ⟨?_, ?_, ?_⟩
      · rw [hu, ← hu2, hdgt, ← hb, ← hr, List.append_assoc]
      · rw [← hb]; simp
      · intro x hx heq
        have hx2 : x ∈ u.takeWhile (fun c => c != '>') := by
          rw [ht, hb]; exact hx
        have := List.mem_takeWhile_imp hx2
        rw [heq] at this
        simp at this

theorem mb_of_shape (b r : List Char) (hb : b ≠ []) (hgt : ∀ x ∈ b, ¬ x = '>') :
    matchBlockAt (bindLit ++ b ++ '>' :: r) = some (b, r) := by
  unfold matchBlockAt
  rw [List.append_assoc]
  have hp : bindLit.isPrefixOf (bindLit ++ (b ++ '>' :: r)) = true := isPrefixOf_append_self _ _
  rw [if_pos hp]
  have hdrop : (bindLit ++ (b ++ '>' :: r)).drop 12 = b ++ '>' :: r := by
    rw [show (12 : Nat) = bindLit.length from rfl]
    exact List.drop_left bindLit _
  rw [hdrop]
  have hall : ∀ x ∈ b, (fun c => c != '>') x = true := by
    intro x hx
    simpa using hgt x hx
  have hhd : ∀ c, ('>' :: r).head? = some c → (fun c => c != '>') c = false := by
    intro c hc
    have : c = '>' := by simpa using hc.symm
    simp [this]
  have h2 := takeWhile_all_append (fun c => c != '>') b ('>' :: r) hall hhd
  rw [h2.1, h2.2]
  cases b with
  | nil => exact absurd rfl hb
  | cons b0 bs => rfl

theorem mb_rest_length {cs b r : List Char} (h : matchBlockAt cs = some (b, r)) :
    r.length + 14 ≤ cs.length := by
  obtain ⟨hcs, hb, _⟩ := mb_eq_some h
  subst hcs
  have h1 : 1 ≤ b.length := Nat.succ_le_of_lt (List.length_pos.mpr hb)
  have h12 : bindLit.length = 12 := rfl
  simp [List.length_append, h12]
  omega

theorem mb_not_b {c : Char} (cs : List Char) (h : ¬ c = 'b') : matchBlockAt (c :: cs) = none := by
  unfold matchBlockAt
  have hbc : ('b' == c) = false := by
    simpa using fun h2 => h h2.symm
  rw [show bindLit = 'b' :: "indings = <".data from rfl, isPrefixOf_cons_iff, hbc,
    Bool.false_and]
  rfl

/-! ## chunks: fuel irrelevance, step equations and chunk shape -/

theorem chunksGo_fuel :
    ∀ (f1 f2 : Nat) (l : List (List Char)), l.length ≤ f1 → l.length ≤ f2 →
      chunksGo f1 l = chunksGo f2 l := by
  intro f1
  induction f1 with
  | zero =>
    intro f2 l h1 _
    have hl : l = [] := List.length_eq_zero.mp (Nat.le_zero.mp h1)
    subst hl
    cases f2 <;> rfl
  | succ a ih =>
    intro f2 l h1 h2
    cases l with
    | nil => cases f2 <;> rfl
    | cons x xs =>
      cases f2 with
      | zero => exact absurd h2 (by simp)
      | succ b =>
        simp only [chunksGo]
        congr 1
        have hda : ((x :: xs).drop 10).length ≤ a := by
          simp only [List.length_drop, List.length_cons]
          have : xs.length + 1 ≤ a + 1 := by simpa using h1
          omega
        have hdb : ((x :: xs).drop 10).length ≤ b := by
          simp only [List.length_drop, List.length_cons]
          have : xs.length + 1 ≤ b + 1 := by simpa using h2
          omega
        exact ih b _ hda hdb

theorem chunks_nil : chunks [] = [] := rfl

theorem chunks_cons (x : List Char) (xs : List (List Char)) :
    chunks (x :: xs) = ((x :: xs).take 10) :: chunks ((x :: xs).drop 10) := by
  show chunksGo (xs.length + 1) (x :: xs) = _
  simp only [chunksGo]
  congr 1
  refine chunksGo_fuel xs.length ((x :: xs).drop 10).length _ ?_ (le_refl _)
  simp only [List.length_drop, List.length_cons]
  omega

theorem chunks_flatten : ∀ (l : List (List Char)), (chunks l).flatten = l := by
  have main : ∀ (n : Nat) (l : List (List Char)), l.length ≤ n → (chunks l).flatten = l := by
    intro n
    induction n with
    | zero =>
      intro l h
      have hl : l = [] := List.length_eq_zero.mp (Nat.le_zero.mp h)
      subst hl
      rfl
    | succ a ih =>
      intro l h
      cases l with
      | nil => rfl
      | cons x xs =>
        rw [chunks_cons, List.flatten_cons]
        have hda : ((x :: xs).drop 10).length ≤ a := by
          simp only [List.length_drop, List.length_cons]
          have : xs.length + 1 ≤ a + 1 := by simpa using h
          omega
        rw [ih _ hda, List.take_append_drop]
  intro l
  exact main l.length l (le_refl _)

theorem chunks_getD :
    ∀ (l : List (List Char)) (k : Nat), (chunks l).getD k [] = (l.drop (10 * k)).take 10 := by
  have main : ∀ (n : Nat) (l : List (List Char)), l.length ≤ n →
      ∀ k, (chunks l).getD k [] = (l.drop (10 * k)).take 10 := by
    intro n
    induction n with
    | zero =>
      intro l h k
      have hl : l = [] := List.length_eq_zero.mp (Nat.le_zero.mp h)
      subst hl
      simp [chunks_nil]
    | succ a ih =>
      intro l h k
      cases l with
      | nil => simp [chunks_nil]
      | cons x xs =>
        rw [chunks_cons]
        cases k with
        | zero => simp
        | succ k2 =>
          have hda : ((x :: xs).drop 10).length ≤ a := by
            simp only [List.length_drop, List.length_cons]
            have : xs.length + 1 ≤ a + 1 := by simpa using h
            omega
          have step : ((x :: xs).take 10 :: chunks ((x :: xs).drop 10)).getD (k2 + 1) [] =
              (chunks ((x :: xs).drop 10)).getD k2 [] := rfl
          rw [step, ih _ hda k2, List.drop_drop]
          congr 2
          omega
  intro l k
  exact main l.length l (le_refl _) k

theorem chunks_length :
    ∀ (l : List (List Char)), (chunks l).length = (l.length + 9) / 10 := by
  have main : ∀ (n : Nat) (l : List (List Char)), l.length ≤ n →
      (chunks l).length = (l.length + 9) / 10 := by
    intro n
    induction n with
    | zero =>
      intro l h
      have hl : l = [] := List.length_eq_zero.mp (Nat.le_zero.mp h)
      subst hl
      rfl
    | succ a ih =>
      intro l h
      cases l with
      | nil => rfl
      | cons x xs =>
        rw [chunks_cons]
        have hda : ((x :: xs).drop 10).length ≤ a := by
          simp only [List.length_drop, List.length_cons]
          have : xs.length + 1 ≤ a + 1 := by simpa using h
          omega
        simp only [List.length_cons, ih _ hda, List.length_drop]
        rcases Nat.lt_or_ge (xs.length + 1) 11 with h1 | h1
        · have e1 : (xs.length + 1 + 9) / 10 = 1 := Nat.div_eq_of_lt_le (by omega) (by omega)
          have e2 : (xs.length + 1 - 10 + 9) / 10 = 0 := Nat.div_eq_of_lt (by omega)
          omega
        · have e3 : xs.length + 1 + 9 = (xs.length + 1 - 10 + 9) + 10 := by omega
          rw [e3, Nat.add_div_right _ (by norm_num)]
  intro l
  exact main l.length l (le_refl _)

theorem chunks_mem_le (l : List (List Char)) : ∀ r ∈ chunks l, r.length ≤ 10 := by
  have main : ∀ (n : Nat) (l : List (List Char)), l.length ≤ n →
      ∀ r ∈ chunks l, r.length ≤ 10 := by
    intro n
    induction n with
    | zero =>
      intro l h r hr
      have hl : l = [] := List.length_eq_zero.mp (Nat.le_zero.mp h)
      subst hl
      simp [chunks_nil] at hr
    | succ a ih =>
      intro l h r hr
      cases l with
      | nil => simp [chunks_nil] at hr
      | cons x xs =>
        rw [chunks_cons] at hr
        rcases List.mem_cons.mp hr with h1 | h1
        · subst h1
          exact List.length_take_le _ _
        · have hda : ((x :: xs).drop 10).length ≤ a := by
            simp only [List.length_drop, List.length_cons]
            have : xs.length + 1 ≤ a + 1 := by simpa using h
            omega
          exact ih _ hda r h1
  exact main l.length l (le_refl _)

theorem chunks_mem_mem (l : List (List Char)) : ∀ r ∈ chunks l, ∀ w ∈ r, w ∈ l := by
  have main : ∀ (n : Nat) (l : List (List Char)), l.length ≤ n →
      ∀ r ∈ chunks l, ∀ w ∈ r, w ∈ l := by
    intro n
    induction n with
    | zero =>
      intro l h r hr
      have hl : l = [] := List.length_eq_zero.mp (Nat.le_zero.mp h)
      subst hl
      simp [chunks_nil] at hr
    | succ a ih =>
      intro l h r hr w hw
      cases l with
      | nil => simp [chunks_nil] at hr
      | cons x xs =>
        rw [chunks_cons] at hr
        rcases List.mem_cons.mp hr with h1 | h1
        · subst h1
          exact List.take_subset _ _ hw
        · have hda : ((x :: xs).drop 10).length ≤ a := by
            simp only [List.length_drop, List.length_cons]
            have : xs.length + 1 ≤ a + 1 := by simpa using h
            omega
          exact List.drop_subset _ _ (ih _ hda r h1 w hw)
  exact main l.length l (le_refl _)

theorem chunks_full (l : List (List Char)) (k : Nat) (h : k + 1 < (chunks l).length) :
    ((chunks l).getD k []).length = 10 := by
  rw [chunks_getD]
  rw [chunks_length] at h
  have h1 : k + 2 ≤ (l.length + 9) / 10 := h
  have h2 : (k + 2) * 10 ≤ (l.length + 9) / 10 * 10 := Nat.mul_le_mul_right 10 h1
  have h3 : (l.length + 9) / 10 * 10 ≤ l.length + 9 := Nat.div_mul_le_self _ _
  simp only [List.length_take, List.length_drop]
  omega

/-! ## The substitution scan: fuel irrelevance and step equations -/

theorem subScanGo_nil : ∀ f : Nat, subScanGo f [] = [] := by
  intro f
  cases f <;> rfl

theorem subScanGo_fuel :
    ∀ (f1 f2 : Nat) (cs : List Char), cs.length ≤ f1 → cs.length ≤ f2 →
      subScanGo f1 cs = subScanGo f2 cs := by
  intro f1
  induction f1 with
  | zero =>
    intro f2 cs h1 _
    have hcs : cs = [] := List.length_eq_zero.mp (Nat.le_zero.mp h1)
    subst hcs
    rw [subScanGo_nil, subScanGo_nil]
  | succ a ih =>
    intro f2 cs h1 h2
    cases cs with
    | nil => rw [subScanGo_nil, subScanGo_nil]
    | cons c rest =>
      cases f2 with
      | zero => exact absurd h2 (by simp)
      | succ b =>
        have hra : rest.length ≤ a := by simpa using h1
        have hrb : rest.length ≤ b := by simpa using h2
        cases hm : matchBlockAt (c :: rest) with
        | none =>
          simp only [subScanGo, hm]
          rw [ih b rest hra hrb]
        | some p =>
          obtain ⟨body, r⟩ := p
          have hlen : r.length + 14 ≤ rest.length + 1 := by
            simpa using mb_rest_length hm
          simp only [subScanGo, hm]
          rw [ih b r (by omega) (by omega)]

theorem fkb_nil : format_keymap_bindings [] = [] := rfl

theorem fkb_some {cs body r : List Char} (hm : matchBlockAt cs = some (body, r)) :
    format_keymap_bindings cs = format_bindings body ++ format_keymap_bindings r := by
  cases cs with
  | nil => rw [mb_nil] at hm; exact absurd hm (by simp)
  | cons c rest =>
    show subScanGo (rest.length + 1) (c :: rest) = _
    simp only [subScanGo, hm]
    congr 1
    have hlen : r.length + 14 ≤ rest.length + 1 := by simpa using mb_rest_length hm
    exact subScanGo_fuel rest.length r.length r (by omega) (le_refl _)

theorem fkb_cons_none {c : Char} {cs : List Char} (hm : matchBlockAt (c :: cs) = none) :
    format_keymap_bindings (c :: cs) = c :: format_keymap_bindings cs := by
  show subScanGo (cs.length + 1) (c :: cs) = _
  simp only [subScanGo, hm]
  rfl

theorem segsGo_nil : ∀ f : Nat, segsGo f [] = [] := by
  intro f
  cases f <;> rfl

theorem segsGo_fuel :
    ∀ (f1 f2 : Nat) (cs : List Char), cs.length ≤ f1 → cs.length ≤ f2 →
      segsGo f1 cs = segsGo f2 cs := by
  intro f1
  induction f1 with
  | zero =>
    intro f2 cs h1 _
    have hcs : cs = [] := List.length_eq_zero.mp (Nat.le_zero.mp h1)
    subst hcs
    rw [segsGo_nil, segsGo_nil]
  | succ a ih =>
    intro f2 cs h1 h2
    cases cs with
    | nil => rw [segsGo_nil, segsGo_nil]
    | cons c rest =>
      cases f2 with
      | zero => exact absurd h2 (by simp)
      | succ b =>
        have hra : rest.length ≤ a := by simpa using h1
        have hrb : rest.length ≤ b := by simpa using h2
        cases hm : matchBlockAt (c :: rest) with
        | none =>
          simp only [segsGo, hm]
          rw [ih b rest hra hrb]
        | some p =>
          obtain ⟨body, r⟩ := p
          have hlen : r.length + 14 ≤ rest.length + 1 := by
            simpa using mb_rest_length hm
          simp only [segsGo, hm]
          rw [ih b r (by omega) (by omega)]

theorem segsOf_nil : segsOf [] = [] := rfl

theorem segsOf_some {cs body r : List Char} (hm : matchBlockAt cs = some (body, r)) :
    segsOf cs = Seg.block body :: segsOf r := by
  cases cs with
  | nil => rw [mb_nil] at hm; exact absurd hm (by simp)
  | cons c rest =>
    show segsGo (rest.length + 1) (c :: rest) = _
    simp only [segsGo, hm]
    congr 1
    have hlen : r.length + 14 ≤ rest.length + 1 := by simpa using mb_rest_length hm
    exact segsGo_fuel rest.length r.length r (by omega) (le_refl _)

theorem segsOf_cons_none {c : Char} {cs : List Char} (hm : matchBlockAt (c :: cs) = none) :
    segsOf (c :: cs) = Seg.lit c :: segsOf cs := by
  show segsGo (cs.length + 1) (c :: cs) = _
  simp only [segsGo, hm]
  rfl

/-! ## Literal decompositions -/

theorem rowSep_eq : rowSep = '\\' :: "\n        ".data := rfl

theorem tail4_eq : tail4 = '\\' :: "\n    ".data := rfl

theorem gridTail_eq : gridTail = '\\' :: "\n    >".data := rfl

theorem gridHeader_eq : gridHeader = bindLit ++ rowSep := by decide

theorem gridTail_split : gridTail = tail4 ++ ['>'] := by decide

/-! ## Tokens survive rendering -/

theorem wordChar_ne_gt {c : Char} (h : isWordChar c = true) : ¬ c = '>' := by
  intro heq
  rw [heq] at h
  exact absurd h (by decide)

theorem wf_no_gt {w : List Char} (hw : WFtok w) : '>' ∉ w := by
  obtain ⟨r0, rs, rfl, hall⟩ := hw
  intro hmem
  rcases List.mem_cons.mp hmem with h1 | h1
  · exact absurd h1.symm (by decide)
  · exact wordChar_ne_gt (hall _ h1) rfl

theorem extractTokens_pad (w t : List Char) (hw : WFtok w)
    (ht : ∀ c, t.head? = some c → isWordChar c = false) :
    extractTokens (pad12 w ++ t) = w :: extractTokens t := by
  obtain ⟨r0, rs, rfl, hall⟩ := hw
  have hshape : pad12 ('&' :: r0 :: rs) ++ t =
      '&' :: ((r0 :: rs) ++ (List.replicate (12 - ('&' :: r0 :: rs).length) ' ' ++ t)) := by
    simp [pad12, List.append_assoc]
  rw [hshape]
  have ht2 : ∀ c, (List.replicate (12 - ('&' :: r0 :: rs).length) ' ' ++ t).head? = some c →
      isWordChar c = false := by
    intro c hc
    cases hk : 12 - ('&' :: r0 :: rs).length with
    | zero => rw [hk] at hc; exact ht c (by simpa using hc)
    | succ k =>
      rw [hk] at hc
      have : c = ' ' := by simpa [List.replicate] using hc.symm
      rw [this]
      decide
  rw [extractTokens_token r0 rs _ hall ht2]
  congr 1
  refine extractTokens_append_noamp _ _ ?_
  intro hmem
  have := List.eq_of_mem_replicate hmem
  exact absurd this (by decide)

theorem extractTokens_renderRow (row : List (List Char)) (t : List Char)
    (hw : ∀ w ∈ row, WFtok w)
    (ht : ∀ c, t.head? = some c → isWordChar c = false) :
    extractTokens (renderRow row ++ t) = row ++ extractTokens t := by
  induction row with
  | nil => simp [renderRow, joinSep]
  | cons w rest ih =>
    cases rest with
    | nil =>
      have : renderRow [w] = pad12 w := rfl
      rw [this]
      simpa using extractTokens_pad w t (hw w (by simp)) ht
    | cons w2 rest2 =>
      have hstep : renderRow (w :: w2 :: rest2) ++ t =
          pad12 w ++ (' ' :: (renderRow (w2 :: rest2) ++ t)) := by
        show (pad12 w ++ [' '] ++ joinSep [' '] ((w2 :: rest2).map pad12)) ++ t = _
        simp [renderRow, List.append_assoc]
      rw [hstep, extractTokens_pad w _ (hw w (by simp))
        (by intro c hc; have h2 : c = ' ' := (by simpa using hc.symm); subst h2; decide)]
      rw [extractTokens_cons_ne _ (by decide)]
      rw [ih (fun x hx => hw x (List.mem_cons_of_mem _ hx))]
      rfl

theorem extractTokens_joined (rows : List (List (List Char))) (t : List Char)
    (hw : ∀ row ∈ rows, ∀ w ∈ row, WFtok w)
    (ht : ∀ c, t.head? = some c → isWordChar c = false) :
    extractTokens (joinSep rowSep (rows.map renderRow) ++ t) = rows.flatten ++ extractTokens t := by
  induction rows with
  | nil => simp [joinSep]
  | cons row rest ih =>
    cases rest with
    | nil =>
      have : joinSep rowSep ([row].map renderRow) = renderRow row := rfl
      rw [this, extractTokens_renderRow row t (hw row (by simp)) ht]
      simp
    | cons row2 rest2 =>
      have hstep : joinSep rowSep ((row :: row2 :: rest2).map renderRow) ++ t =
          renderRow row ++ (rowSep ++ (joinSep rowSep ((row2 :: rest2).map renderRow) ++ t)) := by
        show (renderRow row ++ rowSep ++ joinSep rowSep ((row2 :: rest2).map renderRow)) ++ t = _
        simp [List.append_assoc]
      rw [hstep]
      rw [extractTokens_renderRow row _ (hw row (by simp))
        (by intro c hc
            have h2 : c = '\\' := by rw [rowSep_eq] at hc; simpa using hc.symm
            subst h2; decide)]
      rw [extractTokens_append_noamp rowSep _ (by decide)]
      rw [ih (fun x hx => hw x (List.mem_cons_of_mem _ hx))]
      simp

theorem extractTokens_format_bindings (body : List Char) :
    extractTokens (format_bindings body) = extractTokens body := by
  have hshape : format_bindings body =
      gridHeader ++ (joinSep rowSep ((chunks (extractTokens body)).map renderRow) ++ gridTail) := by
    simp [format_bindings, List.append_assoc]
  rw [hshape, extractTokens_append_noamp gridHeader _ (by decide)]
  rw [extractTokens_joined _ gridTail
    (fun row hrow w hww => extractTokens_wf body w (chunks_mem_mem _ row hrow w hww))
    (by intro c hc; have : c = '\\' := by rw [gridTail_eq] at hc; simpa using hc.symm
        rw [this]; decide)]
  rw [chunks_flatten]
  have : extractTokens gridTail = [] := by decide
  rw [this, List.append_nil]

theorem extractTokens_gridBody (toks : List (List Char)) (hw : ∀ w ∈ toks, WFtok w) :
    extractTokens (gridBody toks) = toks := by
  have hshape : gridBody toks =
      rowSep ++ (joinSep rowSep ((chunks toks).map renderRow) ++ tail4) := by
    simp [gridBody, List.append_assoc]
  rw [hshape, extractTokens_append_noamp rowSep _ (by decide)]
  rw [extractTokens_joined _ tail4
    (fun row hrow w hww => hw w (chunks_mem_mem _ row hrow w hww))
    (by intro c hc; have : c = '\\' := by rw [tail4_eq] at hc; simpa using hc.symm
        rw [this]; decide)]
  rw [chunks_flatten]
  have : extractTokens tail4 = [] := by decide
  rw [this, List.append_nil]

/-! ## The reformatted block reparses as one block -/

theorem mem_joinSep {x : Char} {sep : List Char} :
    ∀ (l : List (List Char)), x ∈ joinSep sep l → x ∈ sep ∨ ∃ y ∈ l, x ∈ y := by
  intro l
  induction l with
  | nil => intro h; simp [joinSep] at h
  | cons a rest ih =>
    cases rest with
    | nil =>
      intro h
      right
      exact ⟨a, by simp, by simpa [joinSep] using h⟩
    | cons b rest2 =>
      intro h
      have h2 : x ∈ a ++ sep ++ joinSep sep (b :: rest2) := h
      rcases List.mem_append.mp h2 with h3 | h3
      · rcases List.mem_append.mp h3 with h4 | h4
        · exact Or.inr ⟨a, by simp, h4⟩
        · exact Or.inl h4
      · rcases ih h3 with h4 | ⟨y, hy, hxy⟩
        · exact Or.inl h4
        · exact Or.inr ⟨y, List.mem_cons_of_mem _ hy, hxy⟩

theorem renderRow_no_gt (row : List (List Char)) (hw : ∀ w ∈ row, WFtok w) :
    '>' ∉ renderRow row := by
  intro hmem
  rcases mem_joinSep _ hmem with h1 | ⟨y, hy, hxy⟩
  · exact absurd (List.mem_singleton.mp h1) (by decide)
  · obtain ⟨w, hwmem, rfl⟩ := List.mem_map.mp hy
    rcases List.mem_append.mp hxy with h2 | h2
    · exact wf_no_gt (hw w hwmem) h2
    · exact absurd (List.eq_of_mem_replicate h2) (by decide)

theorem gridBody_no_gt (toks : List (List Char)) (hw : ∀ w ∈ toks, WFtok w) :
    '>' ∉ gridBody toks := by
  intro hmem
  rcases List.mem_append.mp hmem with h1 | h1
  · rcases List.mem_append.mp h1 with h2 | h2
    · exact absurd h2 (by decide)
    · rcases mem_joinSep _ h2 with h3 | ⟨y, hy, hxy⟩
      · exact absurd h3 (by decide)
      · obtain ⟨row, hrow, rfl⟩ := List.mem_map.mp hy
        exact renderRow_no_gt row (fun w hww => hw w (chunks_mem_mem _ row hrow w hww)) hxy
  · exact absurd h1 (by decide)

theorem gridBody_ne_nil (toks : List (List Char)) : gridBody toks ≠ [] := by
  rw [show gridBody toks = rowSep ++ (joinSep rowSep ((chunks toks).map renderRow) ++ tail4) by
    simp [gridBody, List.append_assoc], rowSep_eq]
  simp

theorem fb_decomp (body : List Char) :
    format_bindings body = bindLit ++ gridBody (extractTokens body) ++ ['>'] := by
  rw [format_bindings, gridBody, gridHeader_eq, gridTail_split]
  simp [List.append_assoc]

theorem fb_congr {x y : List Char} (h : extractTokens x = extractTokens y) :
    format_bindings x = format_bindings y := by
  rw [format_bindings, format_bindings, h]

theorem mb_at_reformatted (body t : List Char) :
    matchBlockAt (format_bindings body ++ t) =
      some (gridBody (extractTokens body), t) := by
  have h1 : format_bindings body ++ t = bindLit ++ gridBody (extractTokens body) ++ '>' :: t := by
    rw [fb_decomp]
    simp [List.append_assoc]
  rw [h1]
  exact mb_of_shape _ t (gridBody_ne_nil _)
    (fun x hx heq => gridBody_no_gt _ (extractTokens_wf body) (heq ▸ hx))

/-! ## Idempotence machinery -/

theorem bindLit_eq : bindLit = 'b' :: tailLit := rfl

theorem fkb_reformatted (body t : List Char) :
    format_keymap_bindings (format_bindings body ++ t) =
      format_bindings body ++ format_keymap_bindings t := by
  rw [fkb_some (mb_at_reformatted body t)]
  congr 1
  exact fb_congr (extractTokens_gridBody _ (extractTokens_wf body))

theorem fkb_no_b (a u : List Char) (ha : ∀ x ∈ a, ¬ x = 'b') :
    format_keymap_bindings (a ++ u) = a ++ format_keymap_bindings u := by
  induction a with
  | nil => rfl
  | cons x a2 ih =>
    rw [List.cons_append, fkb_cons_none (mb_not_b _ (ha x (by simp))),
      ih (fun y hy => ha y (List.mem_cons_of_mem _ hy)), List.cons_append]

theorem fkb_no_gt_id : ∀ (cs : List Char), '>' ∉ cs → format_keymap_bindings cs = cs := by
  have main : ∀ (n : Nat) (cs : List Char), cs.length ≤ n → '>' ∉ cs →
      format_keymap_bindings cs = cs := by
    intro n
    induction n with
    | zero =>
      intro cs h _
      have hcs : cs = [] := List.length_eq_zero.mp (Nat.le_zero.mp h)
      subst hcs
      rfl
    | succ a ih =>
      intro cs h hgt
      cases cs with
      | nil => rfl
      | cons c rest =>
        cases hm : matchBlockAt (c :: rest) with
        | some p =>
          obtain ⟨body, r⟩ := p
          obtain ⟨hshape, _, _⟩ := mb_eq_some hm
          exfalso
          apply hgt
          rw [hshape]
          simp
        | none =>
          rw [fkb_cons_none hm,
            ih rest (by simpa using h) (fun hx => hgt (List.mem_cons_of_mem _ hx))]
  intro cs
  exact main cs.length cs (le_refl _)

theorem fb_head (body : List Char) : ∃ X, format_bindings body = 'b' :: X :=
  ⟨("indings = <\\\n        ".data ++
    joinSep rowSep ((chunks (extractTokens body)).map renderRow)) ++ gridTail, by
    rw [format_bindings, show gridHeader = 'b' :: "indings = <\\\n        ".data from rfl,
      List.cons_append, List.cons_append]⟩

theorem isPrefixOf_fkb :
    ∀ (t s : List Char), 'b' ∉ s → s.isPrefixOf (format_keymap_bindings t) = true →
      s.isPrefixOf t = true := by
  have main : ∀ (n : Nat) (t : List Char), t.length ≤ n → ∀ (s : List Char), 'b' ∉ s →
      s.isPrefixOf (format_keymap_bindings t) = true → s.isPrefixOf t = true := by
    intro n
    induction n with
    | zero =>
      intro t h s _ hp
      have ht : t = [] := List.length_eq_zero.mp (Nat.le_zero.mp h)
      subst ht
      simpa [fkb_nil] using hp
    | succ a ih =>
      intro t h s hs hp
      cases t with
      | nil => simpa [fkb_nil] using hp
      | cons c rest =>
        cases s with
        | nil => rfl
        | cons s0 s1 =>
          cases hm : matchBlockAt (c :: rest) with
          | some p =>
            obtain ⟨body, r⟩ := p
            rw [fkb_some hm] at hp
            obtain ⟨X, hX⟩ := fb_head body
            rw [hX, List.cons_append, isPrefixOf_cons_iff, Bool.and_eq_true] at hp
            obtain ⟨h1, _⟩ := hp
            have hs0 : s0 = 'b' := beq_iff_eq.mp h1
            exact absurd (hs0 ▸ List.mem_cons_self s0 s1) hs
          | none =>
            rw [fkb_cons_none hm, isPrefixOf_cons_iff, Bool.and_eq_true] at hp
            obtain ⟨h1, h2⟩ := hp
            rw [isPrefixOf_cons_iff]
            have h3 : s1.isPrefixOf rest = true :=
              ih rest (by simpa using h) s1 (fun hx => hs (List.mem_cons_of_mem _ hx)) h2
            rw [h1, h3]
            rfl
  intro t s hs hp
  exact main t.length t (le_refl _) s hs hp

theorem mb_none_of_pref_false {cs : List Char} (h : bindLit.isPrefixOf cs = false) :
    matchBlockAt cs = none := by
  unfold matchBlockAt
  simp [h]

theorem mb_empty_body (t : List Char) : matchBlockAt (bindLit ++ '>' :: t) = none := by
  unfold matchBlockAt
  rw [if_pos (isPrefixOf_append_self _ _)]
  have hdrop : (bindLit ++ '>' :: t).drop 12 = '>' :: t := by
    rw [show (12 : Nat) = bindLit.length from rfl]
    exact List.drop_left _ _
  rw [hdrop]
  rfl

theorem mb_none_fkb {c : Char} {rest : List Char} (hm : matchBlockAt (c :: rest) = none) :
    matchBlockAt (c :: format_keymap_bindings rest) = none := by
  by_cases hp : bindLit.isPrefixOf (c :: rest) = true
  · obtain ⟨u, hu⟩ := eq_append_of_isPrefixOf hp
    rw [bindLit_eq, List.cons_append] at hu
    injection hu with hc hrest
    subst hc
    subst hrest
    rw [fkb_no_b tailLit u (by decide)]
    cases u with
    | nil =>
      rw [fkb_nil]
      simpa using hm
    | cons x u2 =>
      by_cases hx : x = '>'
      · subst hx
        rw [fkb_cons_none (mb_not_b _ (by decide))]
        have : ('b' :: (tailLit ++ '>' :: format_keymap_bindings u2)) =
            bindLit ++ '>' :: format_keymap_bindings u2 := by
          rw [bindLit_eq, List.cons_append]
        rw [this]
        exact mb_empty_body _
      · cases hd : (x :: u2).dropWhile (fun ch => ch != '>') with
        | nil =>
          have hgt : '>' ∉ x :: u2 := by
            intro hmem
            have := List.dropWhile_eq_nil_iff.mp hd '>' hmem
            simp at this
          rw [fkb_no_gt_id _ hgt]
          simpa using hm
        | cons d r2 =>
          exfalso
          unfold matchBlockAt at hm
          rw [if_pos hp] at hm
          have hdrop : ('b' :: (tailLit ++ x :: u2)).drop 12 = x :: u2 := by
            rw [show ('b' :: (tailLit ++ x :: u2)) = bindLit ++ x :: u2 by
              rw [bindLit_eq, List.cons_append]]
            rw [show (12 : Nat) = bindLit.length from rfl]
            exact List.drop_left _ _
          rw [hdrop, hd] at hm
          rw [List.takeWhile_cons, if_pos (by simpa using hx)] at hm
          simp at hm
  · apply mb_none_of_pref_false
    cases hq : bindLit.isPrefixOf (c :: format_keymap_bindings rest) with
    | false => rfl
    | true =>
      exfalso
      rw [bindLit_eq, isPrefixOf_cons_iff, Bool.and_eq_true] at hq
      obtain ⟨h1, h2⟩ := hq
      have h3 : tailLit.isPrefixOf rest = true := isPrefixOf_fkb rest tailLit (by decide) h2
      apply hp
      rw [bindLit_eq, isPrefixOf_cons_iff, h1, h3]
      rfl

theorem fkb_idem : ∀ (cs : List Char),
    format_keymap_bindings (format_keymap_bindings cs) = format_keymap_bindings cs := by
  have main : ∀ (n : Nat) (cs : List Char), cs.length ≤ n →
      format_keymap_bindings (format_keymap_bindings cs) = format_keymap_bindings cs := by
    intro n
    induction n with
    | zero =>
      intro cs h
      have hcs : cs = [] := List.length_eq_zero.mp (Nat.le_zero.mp h)
      subst hcs
      rfl
    | succ a ih =>
      intro cs h
      cases cs with
      | nil => rfl
      | cons c rest =>
        cases hm : matchBlockAt (c :: rest) with
        | some p =>
          obtain ⟨body, r⟩ := p
          have hlen : r.length + 14 ≤ rest.length + 1 := by simpa using mb_rest_length hm
          have h2 : rest.length ≤ a := by simpa using h
          rw [fkb_some hm, fkb_reformatted, ih r (by omega)]
        | none =>
          rw [fkb_cons_none hm, fkb_cons_none (mb_none_fkb hm), ih rest (by simpa using h)]
  intro cs
  exact main cs.length cs (le_refl _)

/-! ## Frame property: segments -/

theorem renderOrig_cons (s : Seg) (segs : List Seg) :
    renderOrig (s :: segs) = renderOrigSeg s ++ renderOrig segs := by
  simp [renderOrig]

theorem renderNew_cons (s : Seg) (segs : List Seg) :
    renderNew (s :: segs) = renderNewSeg s ++ renderNew segs := by
  simp [renderNew]

theorem renderOrig_segsOf : ∀ (cs : List Char), renderOrig (segsOf cs) = cs := by
  have main : ∀ (n : Nat) (cs : List Char), cs.length ≤ n → renderOrig (segsOf cs) = cs := by
    intro n
    induction n with
    | zero =>
      intro cs h
      have hcs : cs = [] := List.length_eq_zero.mp (Nat.le_zero.mp h)
      subst hcs
      rfl
    | succ a ih =>
      intro cs h
      cases cs with
      | nil => rfl
      | cons c rest =>
        cases hm : matchBlockAt (c :: rest) with
        | some p =>
          obtain ⟨body, r⟩ := p
          have hlen : r.length + 14 ≤ rest.length + 1 := by simpa using mb_rest_length hm
          have h2 : rest.length ≤ a := by simpa using h
          rw [segsOf_some hm, renderOrig_cons, ih r (by omega)]
          obtain ⟨hshape, _, _⟩ := mb_eq_some hm
          rw [hshape]
          simp [renderOrigSeg, List.append_assoc]
        | none =>
          rw [segsOf_cons_none hm, renderOrig_cons, ih rest (by simpa using h)]
          rfl
  intro cs
  exact main cs.length cs (le_refl _)

theorem fkb_renderNew : ∀ (cs : List Char),
    format_keymap_bindings cs = renderNew (segsOf cs) := by
  have main : ∀ (n : Nat) (cs : List Char), cs.length ≤ n →
      format_keymap_bindings cs = renderNew (segsOf cs) := by
    intro n
    induction n with
    | zero =>
      intro cs h
      have hcs : cs = [] := List.length_eq_zero.mp (Nat.le_zero.mp h)
      subst hcs
      rfl
    | succ a ih =>
      intro cs h
      cases cs with
      | nil => rfl
      | cons c rest =>
        cases hm : matchBlockAt (c :: rest) with
        | some p =>
          obtain ⟨body, r⟩ := p
          have hlen : r.length + 14 ≤ rest.length + 1 := by simpa using mb_rest_length hm
          have h2 : rest.length ≤ a := by simpa using h
          rw [fkb_some hm, segsOf_some hm, renderNew_cons, ih r (by omega)]
          rfl
        | none =>
          rw [fkb_cons_none hm, segsOf_cons_none hm, renderNew_cons,
            ih rest (by simpa using h)]
          rfl
  intro cs
  exact main cs.length cs (le_refl _)

theorem hasBlock_false_id : ∀ (cs : List Char), hasBlock cs = false →
    format_keymap_bindings cs = cs := by
  intro cs
  induction cs with
  | nil => intro _; rfl
  | cons c rest ih =>
    intro h
    have h2 : (matchBlockAt (c :: rest)).isSome = false ∧ hasBlock rest = false := by
      simpa [hasBlock] using h
    have hm : matchBlockAt (c :: rest) = none := by
      cases hmm : matchBlockAt (c :: rest) with
      | none => rfl
      | some p => rw [hmm] at h2; simp at h2
    rw [fkb_cons_none hm, ih h2.2]

/-! ## Validator lemmas -/

theorem keymapChecks_eq (content : List Char) :
    keymapChecks content =
      (if containsSub behaviorsInc content then [] else [errBehaviors]) ++
      (if containsSub keysInc content then [] else [errKeys]) ++
      (if containsSub compatProp content then [] else [errCompat]) ++
      (if hasLayerDecl content then [] else [errLayers]) := by
  by_cases h1 : containsSub behaviorsInc content = true <;>
    by_cases h2 : containsSub keysInc content = true <;>
      by_cases h3 : containsSub compatProp content = true <;>
        by_cases h4 : hasLayerDecl content = true <;>
          simp [keymapChecks, h1, h2, h3, h4]

/-! ## Claim theorems -/

/-- C1: for every bindings block body, the sequence of `&`-prefixed identifier
tokens extractable from the reformatted block equals the sequence extracted
from the original block body — same tokens, same multiplicity, same relative
order; none created, dropped or reordered. -/
theorem spec_C1 (body : List Char) :
    extractTokens (format_bindings body) = extractTokens body :=
  extractTokens_format_bindings body

/-- C2: on a body with n extracted tokens the Formatter emits ⌈n/10⌉ rows,
row k holding tokens 10k..10k+9 of the original sequence (so every row has at
most 10 tokens and only the last may have fewer), and the emitted text joins
each row's tokens — left-justified and padded with spaces to a minimum field
width of 12 — with single spaces, rows separated by the continuation
sequence. -/
theorem spec_C2 (body : List Char) :
    (chunks (extractTokens body)).length = ((extractTokens body).length + 9) / 10
    ∧ (∀ k : Nat, (chunks (extractTokens body)).getD k [] =
        ((extractTokens body).drop (10 * k)).take 10)
    ∧ (∀ r ∈ chunks (extractTokens body), r.length ≤ 10)
    ∧ (∀ k : Nat, k + 1 < (chunks (extractTokens body)).length →
        ((chunks (extractTokens body)).getD k []).length = 10)
    ∧ (chunks (extractTokens body)).flatten = extractTokens body
    ∧ format_bindings body = gridHeader ++
        joinSep rowSep ((chunks (extractTokens body)).map
          (fun row => joinSep [' '] (row.map (fun t => t ++ List.replicate (12 - t.length) ' ')))) ++
        gridTail :=
  ⟨chunks_length _, fun k => chunks_getD _ k, chunks_mem_le _,
   fun k h => chunks_full _ k h, chunks_flatten _, rfl⟩

/-- C2 witness: on a concrete body with eleven tokens, a row other than the
last exists and has exactly ten entries, and each row is within the column
bound. -/
theorem spec_C2_witness :
    ((chunks (extractTokens exBody11)).getD 0 []).length = 10
    ∧ ((chunks (extractTokens exBody11)).getD 0 []).length ≤ 10 :=
  ⟨(spec_C2 exBody11).2.2.2.1 0 (by decide),
   (spec_C2 exBody11).2.2.1 ((chunks (extractTokens exBody11)).getD 0 []) (by decide)⟩

/-- C3: for every successfully read content the Validator's error list is the
ordered concatenation of the four independent checks' contributions, it is
empty exactly when all four required elements are present, and each failing
check contributes exactly one fixed diagnostic (each check is evaluated
regardless of the others). -/
theorem spec_C3 (content : List Char) :
    validate_keymap_syntax (Except.ok content) = keymapChecks content
    ∧ keymapChecks content =
        (if containsSub behaviorsInc content then [] else [errBehaviors]) ++
        (if containsSub keysInc content then [] else [errKeys]) ++
        (if containsSub compatProp content then [] else [errCompat]) ++
        (if hasLayerDecl content then [] else [errLayers])
    ∧ (keymapChecks content = [] ↔
        (containsSub behaviorsInc content = true ∧ containsSub keysInc content = true ∧
         containsSub compatProp content = true ∧ hasLayerDecl content = true))
    ∧ (keymapChecks content).count errBehaviors =
        (if containsSub behaviorsInc content then 0 else 1)
    ∧ (keymapChecks content).count errKeys = (if containsSub keysInc content then 0 else 1)
    ∧ (keymapChecks content).count errCompat = (if containsSub compatProp content then 0 else 1)
    ∧ (keymapChecks content).count errLayers = (if hasLayerDecl content then 0 else 1) := by
  refine ⟨rfl, keymapChecks_eq content, ?_, ?_, ?_, ?_, ?_⟩ <;>
    by_cases h1 : containsSub behaviorsInc content = true <;>
      by_cases h2 : containsSub keysInc content = true <;>
        by_cases h3 : containsSub compatProp content = true <;>
          by_cases h4 : hasLayerDecl content = true <;>
            simp [keymapChecks_eq content, h1, h2, h3, h4] <;> decide

/-- C4: if the external formatter exits non-zero, the text written back is the
grid-formatted text unchanged; if the binary is absent, the filter is
skipped, the informational note is printed and the grid text is still
written; only a zero exit status replaces the text with the subprocess's
standard output. -/
theorem spec_C4 (content : List Char) (outcome : ClangOutcome) :
    (outcome = ClangOutcome.notFound →
      (format_with_clang_and_grid content outcome).1 = format_keymap_bindings content ∧
      clangNote ∈ (format_with_clang_and_grid content outcome).2)
    ∧ (∀ (code : Int) (out errText : List Char), outcome = ClangOutcome.ran code out errText →
        ¬ code = 0 → (format_with_clang_and_grid content outcome).1 =
          format_keymap_bindings content)
    ∧ (∀ (out errText : List Char), outcome = ClangOutcome.ran 0 out errText →
        (format_with_clang_and_grid content outcome).1 = out)
    ∧ ((format_with_clang_and_grid content outcome).1 ≠ format_keymap_bindings content →
        ∃ out errText, outcome = ClangOutcome.ran 0 out errText ∧
          (format_with_clang_and_grid content outcome).1 = out) := by
  cases outcome with
  | notFound =>
    refine ⟨fun _ => ⟨rfl, by simp [format_with_clang_and_grid, applyClangFilter]⟩, ?_, ?_, ?_⟩
    · intro code out errText h
      exact ClangOutcome.noConfusion h
    · intro out errText h
      exact ClangOutcome.noConfusion h
    · intro h
      exact absurd rfl h
  | ran code out errText =>
    by_cases hc : code = 0
    · subst hc
      refine ⟨fun h => ClangOutcome.noConfusion h, ?_, ?_, ?_⟩
      · intro code2 out2 err2 heq hne
        injection heq with e1 e2 e3
        exact absurd e1.symm hne
      · intro out2 err2 heq
        simp only [ClangOutcome.ran.injEq] at heq
        obtain ⟨_, e2, e3⟩ := heq
        subst e2
        simp [format_with_clang_and_grid, applyClangFilter]
      · intro _
        exact ⟨out, errText, rfl, by simp [format_with_clang_and_grid, applyClangFilter]⟩
    · refine ⟨fun h => ClangOutcome.noConfusion h, ?_, ?_, ?_⟩
      · intro code2 out2 err2 heq hne
        simp [format_with_clang_and_grid, applyClangFilter, hc]
      · intro out2 err2 heq
        injection heq with e1 e2 e3
        exact absurd e1 hc
      · intro h
        exfalso
        apply h
        simp [format_with_clang_and_grid, applyClangFilter, hc]

/-- C4 witness: at a concrete input and a concrete non-zero exit, the written
text equals the grid-formatted text. -/
theorem spec_C4_witness :
    (format_with_clang_and_grid exKeymap (ClangOutcome.ran 1 "other".data [])).1 =
      format_keymap_bindings exKeymap :=
  (spec_C4 exKeymap (ClangOutcome.ran 1 "other".data [])).2.1 1 "other".data [] rfl (by decide)

/-- C5: an input with zero bindings blocks passes through the transform
unchanged, and in general the input decomposes into literal characters and
matched blocks such that the output replaces exactly the matched blocks and
reproduces every literal character verbatim in place. -/
theorem spec_C5 (cs : List Char) :
    (hasBlock cs = false → format_keymap_bindings cs = cs)
    ∧ renderOrig (segsOf cs) = cs
    ∧ format_keymap_bindings cs = renderNew (segsOf cs)
    ∧ (∀ s ∈ segsOf cs, ∀ c : Char, s = Seg.lit c → renderNewSeg s = renderOrigSeg s) :=
  ⟨hasBlock_false_id cs, renderOrig_segsOf cs, fkb_renderNew cs,
   fun s _ c hs => by subst hs; rfl⟩

/-- C5 witness: a concrete blockless text is returned unchanged, and its
segment decomposition reproduces it. -/
theorem spec_C5_witness :
    format_keymap_bindings exPlain = exPlain ∧ renderOrig (segsOf exPlain) = exPlain :=
  ⟨(spec_C5 exPlain).1 (by decide), (spec_C5 exPlain).2.1⟩

/-- C6 counterexample: on a file missing only the behaviors include, the
Validator prints the `Errors found:` header first and the diagnostic line
second — not the diagnostic before the header as the claim orders them. -/
theorem spec_C6_counterexample :
    validatorReport ( validate_keymap_syntax (Except.ok exC6)) ≠
      ["  - " ++ errBehaviors, "Errors found:"]
    ∧ validatorReport ( validate_keymap_syntax (Except.ok exC6)) =
      ["Errors found:", "  - " ++ errBehaviors] := by
  constructor
  · decide
  · decide

/-- C6 (amended): for a file missing `#include <behaviors.dtsi>` but
containing the other three required elements, the Validator prints the
`Errors found:` header and then exactly one diagnostic line for the missing
include, and returns normally. -/
theorem spec_C6 (content : List Char)
    (h1 : containsSub behaviorsInc content = false)
    (h2 : containsSub keysInc content = true)
    (h3 : containsSub compatProp content = true)
    (h4 : hasLayerDecl content = true) :
    validate_keymap_syntax (Except.ok content) = [errBehaviors]
    ∧ validatorReport ( validate_keymap_syntax (Except.ok content)) =
        ["Errors found:", "  - " ++ errBehaviors] := by
  have he : validate_keymap_syntax (Except.ok content) = [errBehaviors] := by
    show keymapChecks content = [errBehaviors]
    rw [keymapChecks_eq content]
    simp [h1, h2, h3, h4]
  refine ⟨he, ?_⟩
  rw [he]
  rfl

/-- C6 witness: the amended behaviour at the concrete Scenario 2 file. -/
theorem spec_C6_witness :
    validate_keymap_syntax (Except.ok exC6) = [errBehaviors]
    ∧ validatorReport ( validate_keymap_syntax (Except.ok exC6)) =
        ["Errors found:", "  - " ++ errBehaviors] :=
  spec_C6 exC6 (by decide) (by decide) (by decide) (by decide)

/-- C7: when the file cannot be read, none of the four content checks runs;
the result is exactly one diagnostic describing the read failure, and it is
printed through the same error-list path (header plus `  - ` line) as
ordinary check failures. -/
theorem spec_C7 (msg : String) :
    validate_keymap_syntax (Except.error msg) = ["Error reading file: " ++ msg]
    ∧ ( validate_keymap_syntax (Except.error msg)).length = 1
    ∧ validatorReport ( validate_keymap_syntax (Except.error msg)) =
        ["Errors found:", "  - " ++ ("Error reading file: " ++ msg)] :=
  ⟨rfl, rfl, rfl⟩

/-- C8: a matched block whose body yields zero tokens reformats, totally and
without any failure, to the fixed empty-grid block, whose body contains no
tokens. -/
theorem spec_C8 (body : List Char) (h : extractTokens body = []) :
    format_bindings body = "bindings = <\\\n        \\\n    >".data
    ∧ extractTokens (format_bindings body) = [] := by
  constructor
  · rw [format_bindings, h, chunks_nil]
    decide
  · rw [extractTokens_format_bindings, h]

/-- C8 witness: a concrete body with no `&` token produces the empty grid. -/
theorem spec_C8_witness :
    format_bindings exNoTok = "bindings = <\\\n        \\\n    >".data
    ∧ extractTokens (format_bindings exNoTok) = [] :=
  spec_C8 exNoTok (by decide)

/-- C9: the grid transform is idempotent — applying format_keymap_bindings
to its own output returns that output unchanged. -/
theorem spec_C9 (content : List Char) :
    format_keymap_bindings (format_keymap_bindings content) =
      format_keymap_bindings content :=
  fkb_idem content

/-- C10: an empty-bodied construct `bindings = <>` is never matched by the
block pattern (which demands at least one non-`>` character before the
closing bracket), so it passes through the transform unchanged while the
scan continues behind it. -/
theorem spec_C10 :
    (∀ t : List Char, matchBlockAt (bindLit ++ '>' :: t) = none)
    ∧ format_keymap_bindings "bindings = <>".data = "bindings = <>".data
    ∧ (∀ t : List Char, format_keymap_bindings ("bindings = <>".data ++ t) =
        "bindings = <>".data ++ format_keymap_bindings t) := by
  have he : ∀ u : List Char, "bindings = <>".data ++ u = 'b' :: (tailLit ++ '>' :: u) := by
    intro u
    rw [show "bindings = <>".data = 'b' :: (tailLit ++ ['>']) from rfl, List.cons_append,
      List.append_assoc]
    rfl
  refine ⟨mb_empty_body, by decide, ?_⟩
  intro t
  rw [he t]
  have hm : matchBlockAt ('b' :: (tailLit ++ '>' :: t)) = none := by
    have h0 := mb_empty_body t
    rwa [bindLit_eq, List.cons_append] at h0
  rw [fkb_cons_none hm, fkb_no_b tailLit _ (by decide),
    fkb_cons_none (mb_not_b _ (by decide)), he (format_keymap_bindings t)]

end ZMKSpec
